import Mathlib

/-! Shallow embedding of the jarvis repository (src/jarvis/jarvis.py and
src/jarvis/utils.py), together with the parts of Python's difflib
(SequenceMatcher, get_close_matches) that the name-resolution functions
`autocomplete` and `autocorrect` call.

Modelling conventions:
* Python unicode strings are `List Char`.  Python 2 distinguishes byte
  strings (`str`) from `unicode`; the `isinstance` checks in `sub_edit`
  observe that distinction, so the dynamic value type `PyVal` keeps both.
* Python floats are modelled by exact fractions (`Frac`) compared by
  cross-multiplication.  Every float produced here has the form
  `2*matches/total` with `total` bounded by the involved string lengths,
  and the cutoffs are short decimal literals, so IEEE double rounding can
  never flip one of the comparisons performed by the code; the fraction
  model is exact for every comparison the program makes.
* A raised Python exception is `PyResult.exn`; `sys.exit(n)` and normal
  completion of a subcommand are captured by `EditOutcome`.
* Loops whose termination argument is extrinsic (the queue loop of
  `get_matching_blocks`, the extension loops of `find_longest_match`,
  and the recursion of `max_substring`) take an explicit fuel argument,
  initialised at their unique call site with a bound that dominates the
  real iteration count, so the fuel-exhaustion branch is never reached
  on any input (for `max_substring` this is proved below).
* Python dict iteration order is unspecified in Python 2; where the code
  iterates over `vars(args)` the per-field updates are independent, so a
  fixed field order is used and only the choice of which exception
  surfaces first could differ, never a successful result.
-/

namespace Jarvis

/-- Python exceptions that the modelled code can raise. -/
inductive PyErr where
  | indexError
  | valueError
  | typeError
  | keyError
  | attributeError
  | assertionError (msg : List Char)
deriving DecidableEq

/-- Result of running a piece of Python code: a value or a raised exception. -/
inductive PyResult (α : Type) where
  | ok (val : α)
  | exn (e : PyErr)
deriving DecidableEq

/-- Exact fraction standing for a Python float (see header comment). -/
structure Frac where
  num : Int
  den : Nat
deriving DecidableEq

/-- Float comparison `x < y`, exact via cross-multiplication. -/
def flt (x y : Frac) : Bool :=
  decide (x.num * (y.den : Int) < y.num * (x.den : Int))

/-- Float comparison `x <= y`, exact via cross-multiplication. -/
def fle (x y : Frac) : Bool :=
  decide (x.num * (y.den : Int) ≤ y.num * (x.den : Int))

/-- Float equality, exact via cross-multiplication. -/
def feq (x y : Frac) : Bool := !flt x y && !flt y x

def fzero : Frac := ⟨0, 1⟩

def fone : Frac := ⟨1, 1⟩

/-- `str.lower()` applied to a whole string. -/
def pyLower (s : List Char) : List Char := s.map Char.toLower

/-! difflib.SequenceMatcher, specialised to `isjunk=None` as constructed by
`get_close_matches`.  `b2j` maps an element of `b` to its (ascending) list
of positions in `b`; `__chain_b` deletes "popular" entries when
`autojunk` applies (`len(b) >= 200`). -/

def b2jAll (b : List Char) (c : Char) : List Nat :=
  (List.range b.length).filter (fun j => b.getD j 'a' = c)

def b2j (b : List Char) (c : Char) : List Nat :=
  if 200 ≤ b.length ∧ b.length / 100 + 1 < (b2jAll b c).length then [] else b2jAll b c

/-- Inner loop of `find_longest_match` over `b2j[a[i]]`: the `continue` on
`j < blo` skips, the `break` on `j >= bhi` stops (the index list is
ascending).  State is `(besti, bestj, bestsize)`; `j2len` is the previous
row of run lengths, `newj2len` the row being built. -/
def flmJLoop (i blo bhi : Nat) (j2len : Nat → Nat) :
    List Nat → (Nat → Nat) → Nat × Nat × Nat → (Nat → Nat) × (Nat × Nat × Nat)
  | [], newj2len, st => (newj2len, st)
  | j :: js, newj2len, st =>
    if j < blo then flmJLoop i blo bhi j2len js newj2len st
    else if bhi ≤ j then (newj2len, st)
    else
      let k := (if j = 0 then 0 else j2len (j - 1)) + 1
      let st2 := if st.2.2 < k then (i + 1 - k, j + 1 - k, k) else st
      flmJLoop i blo bhi j2len js (fun j2 => if j2 = j then k else newj2len j2) st2

/-- Outer loop of `find_longest_match` over `i in range(alo, ahi)`. -/
def flmILoop (a b : List Char) (blo bhi : Nat) :
    List Nat → (Nat → Nat) → Nat × Nat × Nat → Nat × Nat × Nat
  | [], _, st => st
  | i :: is, j2len, st =>
    let r := flmJLoop i blo bhi j2len (b2j b (a.getD i 'a')) (fun _ => 0) st
    flmILoop a b blo bhi is r.1 r.2

/-- Backward extension loop of `find_longest_match` (`expect` is the value
`isbjunk` must return for the loop to continue: `false` for the plain
loops, `true` for the junk loops).  Fuel: each step lowers `besti` by one
and the loop stops at `besti = alo`, so `besti` steps always suffice. -/
def extendBack (a b : List Char) (isbjunk : Char → Bool) (expect : Bool) (alo blo : Nat) :
    Nat → Nat × Nat × Nat → Nat × Nat × Nat
  | 0, st => st
  | fuel + 1, st =>
    if alo < st.1 ∧ blo < st.2.1 ∧ isbjunk (b.getD (st.2.1 - 1) 'a') = expect ∧
        a.getD (st.1 - 1) 'a' = b.getD (st.2.1 - 1) 'a' then
      extendBack a b isbjunk expect alo blo fuel (st.1 - 1, st.2.1 - 1, st.2.2 + 1)
    else st

/-- Forward extension loop of `find_longest_match`.  Fuel: each step raises
`bestj + bestsize`, which stays below `bhi`, so `bhi` steps suffice. -/
def extendFwd (a b : List Char) (isbjunk : Char → Bool) (expect : Bool) (ahi bhi : Nat) :
    Nat → Nat × Nat × Nat → Nat × Nat × Nat
  | 0, st => st
  | fuel + 1, st =>
    if st.1 + st.2.2 < ahi ∧ st.2.1 + st.2.2 < bhi ∧
        isbjunk (b.getD (st.2.1 + st.2.2) 'a') = expect ∧
        a.getD (st.1 + st.2.2) 'a' = b.getD (st.2.1 + st.2.2) 'a' then
      extendFwd a b isbjunk expect ahi bhi fuel (st.1, st.2.1, st.2.2 + 1)
    else st

/-- With `isjunk=None` the junk dictionary is empty, so `isbjunk` is
constantly false. -/
def notJunk : Char → Bool := fun _ => false

def findLongestMatch (a b : List Char) (alo ahi blo bhi : Nat) : Nat × Nat × Nat :=
  let st0 := flmILoop a b blo bhi (List.range' alo (ahi - alo)) (fun _ => 0) (alo, blo, 0)
  let st1 := extendBack a b notJunk false alo blo st0.1 st0
  let st2 := extendFwd a b notJunk false ahi bhi bhi st1
  let st3 := extendBack a b notJunk true alo blo st2.1 st2
  let st4 := extendFwd a b notJunk true ahi bhi bhi st3
  st4

/-- Total size of the matching blocks found by the queue loop of
`get_matching_blocks` (the only quantity `ratio` needs).  The queue
recursion splits the interval strictly at each level, so depth
`len(a) + len(b) + 1` of fuel always suffices. -/
def smMatchesRec (a b : List Char) : Nat → Nat → Nat → Nat → Nat → Nat
  | 0, _, _, _, _ => 0
  | fuel + 1, alo, ahi, blo, bhi =>
    let r := findLongestMatch a b alo ahi blo bhi
    if r.2.2 = 0 then 0
    else
      r.2.2 + (if alo < r.1 ∧ blo < r.2.1 then smMatchesRec a b fuel alo r.1 blo r.2.1 else 0)
        + (if r.1 + r.2.2 < ahi ∧ r.2.1 + r.2.2 < bhi then
            smMatchesRec a b fuel (r.1 + r.2.2) ahi (r.2.1 + r.2.2) bhi else 0)

def smMatches (a b : List Char) : Nat :=
  smMatchesRec a b (a.length + b.length + 1) 0 a.length 0 b.length

/-- difflib `_calculate_ratio(matches, length)` (the first argument is
called `matchCount` because `matches` is reserved in Lean). -/
def calculate_ratio (matchCount length : Nat) : Frac :=
  if length ≠ 0 then ⟨2 * (matchCount : Int), length⟩ else ⟨1, 1⟩

/-- `SequenceMatcher.ratio()` for `a` against `b`. -/
def ratio (a b : List Char) : Frac :=
  calculate_ratio (smMatches a b) (a.length + b.length)

/-- `fullbcount` of `quick_ratio`: multiplicity of `c` in `b`. -/
def fullbcount (b : List Char) (c : Char) : Nat := b.count c

/-- The loop of `quick_ratio` over the elements of `a`; `avail` plays the
role of the `avail` dict (`none` = key absent). -/
def qrLoop (b : List Char) : List Char → (Char → Option Int) → Nat → Nat
  | [], _, matchCount => matchCount
  | c :: rest, avail, matchCount =>
    let numb : Int := match avail c with | some v => v | Option.none => (fullbcount b c : Int)
    qrLoop b rest (fun x => if x = c then some (numb - 1) else avail x)
      (if 0 < numb then matchCount + 1 else matchCount)

def quick_ratio (a b : List Char) : Frac :=
  calculate_ratio (qrLoop b a (fun _ => Option.none) 0) (a.length + b.length)

def real_quick_ratio (a b : List Char) : Frac :=
  calculate_ratio (min a.length b.length) (a.length + b.length)

/-! `get_close_matches(word, possibilities, n=3, cutoff)`: keep the
possibilities whose three ratios reach the cutoff, then return the `n`
best, sorted like `heapq.nlargest` sorts `(score, x)` pairs: by
descending score and, for equal scores, by descending string order
(Python tuple comparison). -/

/-- Python `<` on strings: lexicographic by code point. -/
def strLtB : List Char → List Char → Bool
  | [], [] => false
  | [], _ :: _ => true
  | _ :: _, [] => false
  | c :: cs, d :: ds =>
    if c.toNat < d.toNat then true
    else if d.toNat < c.toNat then false
    else strLtB cs ds

/-- Python `<` on `(score, string)` pairs (tuple comparison). -/
def scoreLt (x y : Frac × List Char) : Bool :=
  if flt x.1 y.1 then true else if flt y.1 x.1 then false else strLtB x.2 y.2

/-- Insertion into a descending-sorted list (value-equivalent to what
`heapq.nlargest` produces: `sorted(result, reverse=True)`). -/
def insertDesc (x : Frac × List Char) : List (Frac × List Char) → List (Frac × List Char)
  | [] => [x]
  | y :: ys => if scoreLt x y then y :: insertDesc x ys else x :: y :: ys

def sortDesc : List (Frac × List Char) → List (Frac × List Char)
  | [] => []
  | x :: xs => insertDesc x (sortDesc xs)

/-- The three-cutoff filter of `get_close_matches`. -/
def passes (x word : List Char) (cutoff : Frac) : Bool :=
  fle cutoff (real_quick_ratio x word) && fle cutoff (quick_ratio x word) &&
    fle cutoff (ratio x word)

def survivors (word : List Char) (possibilities : List (List Char)) (cutoff : Frac) :
    List (List Char) :=
  possibilities.filter (fun x => passes x word cutoff)

def get_close_matches (word : List Char) (possibilities : List (List Char)) (n : Nat)
    (cutoff : Frac) : PyResult (List (List Char)) :=
  if n = 0 then .exn .valueError
  else if (fle fzero cutoff && fle cutoff fone) = false then .exn .valueError
  else
    .ok (((sortDesc ((survivors word possibilities cutoff).map
      (fun x => (ratio x word, x)))).take n).map Prod.snd)

/-! `max_substring(words, last_letter='', position=0)` from utils.py /
jarvis.py.  The `try` block only guards the list comprehension
`[word[position] for word in words]`; the later `letter[0]`, evaluated as
an argument of the recursive call, is outside it, so on `words = []` the
IndexError it raises escapes (modelled by `Option.none`). -/

def sumLen (words : List (List Char)) : Nat := (words.map List.length).sum

/-- The guarded comprehension `[word[position] for word in words]`:
`none` is the caught IndexError. -/
def tryLetters : List (List Char) → Nat → Option (List Char)
  | [], _ => some []
  | w :: ws, position =>
    match w[position]? with
    | Option.none => Option.none
    | some c =>
      match tryLetters ws position with
      | Option.none => Option.none
      | some cs => some (c :: cs)

def max_substringF : Nat → List (List Char) → List Char → Nat → Option (List Char)
  | 0, _, last_letter, _ => some last_letter
  | fuel + 1, words, last_letter, position =>
    match tryLetters words position with
    | Option.none => some last_letter
    | some letter =>
      if letter.all (fun l => letter.head? == some l) then
        match letter.head? with
        | Option.none => Option.none
        | some l0 =>
          match max_substringF fuel words [l0] (position + 1) with
          | Option.none => Option.none
          | some rest => some (last_letter ++ rest)
      else some last_letter

/-- The recursion stops once `position` reaches the length of the
shortest word, so `sumLen words + 1` units of fuel always suffice
(proved below by `max_substringF_eq_lcpFrom`). -/
def max_substring (words : List (List Char)) (last_letter : List Char) (position : Nat) :
    Option (List Char) :=
  max_substringF (sumLen words + 1) words last_letter position

/-- Reference longest-common-prefix-from-position function, mirroring the
recursion structure of `max_substringF` (same fuel discipline); used to
state and prove what `max_substring` computes. -/
def lcpFromF : Nat → List (List Char) → Nat → List Char
  | 0, _, _ => []
  | fuel + 1, words, position =>
    match tryLetters words position with
    | Option.none => []
    | some letter =>
      if letter.all (fun l => letter.head? == some l) then
        match letter.head? with
        | Option.none => []
        | some l0 => l0 :: lcpFromF fuel words (position + 1)
      else []

def lcpFrom (words : List (List Char)) (position : Nat) : List Char :=
  lcpFromF (sumLen words + 1) words position

/-- Message of the AssertionError raised by utils.autocorrect. -/
def noMatchMsg (q : List Char) : List Char :=
  ['N', 'o', ' ', 'm', 'a', 't', 'c', 'h', 'e', 's', ' ', 'f', 'o', 'r', ' ', '"'] ++ q ++
    ['"', ' ', 'f', 'o', 'u', 'n', 'd']

/-- `return matches[0]` of jarvis.autocomplete: IndexError on an empty
list. -/
def firstMatch : PyResult (List (List Char)) → PyResult (List Char)
  | .exn e => .exn e
  | .ok [] => .exn .indexError
  | .ok (m :: _) => .ok m

/-- `assert len(matches) > 0 / raise AssertionError(...)` followed by
`return matches[0]` of utils.autocorrect. -/
def firstMatchAssert (query : List Char) : PyResult (List (List Char)) → PyResult (List Char)
  | .exn e => .exn e
  | .ok [] => .exn (.assertionError (noMatchMsg query))
  | .ok (m :: _) => .ok m

/-- `autocomplete(query, possibilities, delta=0.75)` from jarvis.py. -/
def autocomplete (query : List Char) (possibilities : List (List Char)) (delta : Frac) :
    PyResult (List Char) :=
  let possibilities := possibilities.map pyLower
  if query ∈ possibilities then .ok query
  else
    let options := possibilities.filter (fun w => query.isPrefixOf w)
    if 0 < options.length then
      match max_substring options [] 0 with
      | Option.none => .exn .indexError
      | some q2 => firstMatch (get_close_matches q2 options 3 delta)
    else firstMatch (get_close_matches query possibilities 3 delta)

/-- `autocorrect(query, possibilities, delta=0.75)` from utils.py
(identical to autocomplete except for the final assert). -/
def autocorrect (query : List Char) (possibilities : List (List Char)) (delta : Frac) :
    PyResult (List Char) :=
  let possibilities := possibilities.map pyLower
  if query ∈ possibilities then .ok query
  else
    let options := possibilities.filter (fun w => query.isPrefixOf w)
    if 0 < options.length then
      match max_substring options [] 0 with
      | Option.none => .exn .indexError
      | some q2 => firstMatchAssert q2 (get_close_matches q2 options 3 delta)
    else firstMatchAssert query (get_close_matches query possibilities 3 delta)

/-- The prefix-narrowed candidate set (`options` in the source). -/
def narrowedOptions (query : List Char) (possibilities : List (List Char)) :
    List (List Char) :=
  (possibilities.map pyLower).filter (fun w => query.isPrefixOf w)

/-- The query after prefix narrowing (`query = max_substring(options)`). -/
def narrowedQuery (query : List Char) (possibilities : List (List Char)) : List Char :=
  (max_substring (narrowedOptions query possibilities) [] 0).getD []

/-- The query actually passed to `get_close_matches`: the longest common
leading substring of the narrowed options when prefix narrowing fires
(`len(options) > 0` in the source), the original query otherwise. -/
def effectiveQuery (query : List Char) (possibilities : List (List Char)) : List Char :=
  if 0 < (narrowedOptions query possibilities).length
  then narrowedQuery query possibilities else query

/-- The candidate list actually passed to `get_close_matches`: the
narrowed options when prefix narrowing fires, the lowercased
possibilities otherwise. -/
def effectiveCandidates (query : List Char) (possibilities : List (List Char)) :
    List (List Char) :=
  if 0 < (narrowedOptions query possibilities).length
  then narrowedOptions query possibilities else possibilities.map pyLower

/-! The `edit` subcommand: `sub_edit(args, data)` from jarvis.py.
The database `data` is a dict from entry name to a record dict; it is
modelled as an association list (dict iteration order is unspecified in
Python 2, `data.keys()` is modelled as the association-list order).
Command-line argument values are dynamically typed (`None`, `str`,
`unicode`, or `list`), modelled by `PyVal`.  The interactive
confirmation prompt reads from a stream of `answers`. -/

/-- A dynamically typed Python value as stored in `vars(args)` and in the
per-entry record dicts. -/
inductive PyVal where
  | pynone
  | pystr (s : List Char)
  | pyuni (s : List Char)
  | pylist (l : List (List Char))
deriving DecidableEq

/-- One database record.  Fields in source key order: description,
version, previous versions, commands, installation method, dependencies,
categories. -/
structure Record where
  description : PyVal
  version : PyVal
  prevVersions : PyVal
  commands : PyVal
  installMethod : PyVal
  dependencies : PyVal
  categories : PyVal
deriving DecidableEq

abbrev Store := List (List Char × Record)

/-- The parsed `edit` arguments.  Field values that the user did not supply
keep their argparse defaults: `pynone` for `--version`/`--synopsis`
(no default), `pyuni []` for the flags declared with `default=''`
(a unicode literal, because of `from __future__ import unicode_literals`).
Values supplied on the command line are `pystr` for plain flags and
`pylist` for the comma-parsing flags. -/
structure EditArgs where
  software : List Char
  append : Bool
  edit : Bool
  remove : Bool
  version : PyVal
  description : PyVal
  prevVersions : PyVal
  commands : PyVal
  categories : PyVal
  installMethod : PyVal
  dependencies : PyVal
deriving DecidableEq

/-- One step of the `--edit` loop body for a single attribute: `v` is
`all_args[attribute]`, `cur` is `data[match][attribute]`.  Note that
`v[0]` raises IndexError on an empty list, that `v.remove('+')` removes
the leading `'+'`, that `.extend` on a non-list raises AttributeError,
and that the final `else` branch overwrites the field with `v`
unconditionally (this is where absent flags leak their defaults in). -/
def applyEdit (v cur : PyVal) : PyResult PyVal :=
  match v with
  | .pylist [] => .exn .indexError
  | .pylist (x :: rest) =>
    if x = ['+'] then
      match cur with
      | .pylist curl => .ok (.pylist (curl ++ rest))
      | _ => .exn .attributeError
    else if x = ['-'] then .ok (.pylist [])
    else .ok (.pylist (x :: rest))
  | .pystr s => if s = ['-'] then .ok (.pyuni []) else .ok (.pystr s)
  | v => .ok v

/-- The `--edit` loop over the seven relevant attributes (order fixed, see
header comment; the updates touch disjoint fields). -/
def applyEditAll (a : EditArgs) (r : Record) : PyResult Record :=
  match applyEdit a.description r.description with
  | .exn e => .exn e
  | .ok d =>
  match applyEdit a.version r.version with
  | .exn e => .exn e
  | .ok v =>
  match applyEdit a.prevVersions r.prevVersions with
  | .exn e => .exn e
  | .ok p =>
  match applyEdit a.commands r.commands with
  | .exn e => .exn e
  | .ok c =>
  match applyEdit a.installMethod r.installMethod with
  | .exn e => .exn e
  | .ok i =>
  match applyEdit a.dependencies r.dependencies with
  | .exn e => .exn e
  | .ok dep =>
  match applyEdit a.categories r.categories with
  | .exn e => .exn e
  | .ok cat => .ok ⟨d, v, p, c, i, dep, cat⟩

/-- Python 2 `cur += v` as used by the `--append` branch
(`data[args.software][attribute] += all_args[attribute]`): string
concatenation coerces to unicode, `list += iterable` extends the list
(iterating a string yields its one-character strings), and `'' + None`
or `[] + None` raises TypeError. -/
def pyIAdd (cur v : PyVal) : PyResult PyVal :=
  match cur, v with
  | .pyuni a, .pyuni b => .ok (.pyuni (a ++ b))
  | .pyuni a, .pystr b => .ok (.pyuni (a ++ b))
  | .pyuni _, _ => .exn .typeError
  | .pystr a, .pystr b => .ok (.pystr (a ++ b))
  | .pystr a, .pyuni b => .ok (.pyuni (a ++ b))
  | .pystr _, _ => .exn .typeError
  | .pylist a, .pylist b => .ok (.pylist (a ++ b))
  | .pylist a, .pyuni s => .ok (.pylist (a ++ s.map (fun ch => [ch])))
  | .pylist a, .pystr s => .ok (.pylist (a ++ s.map (fun ch => [ch])))
  | .pylist _, _ => .exn .typeError
  | .pynone, _ => .exn .typeError

/-- The fresh record dict literal of the `--append` branch. -/
def defaultRecord : Record :=
  ⟨.pyuni [], .pyuni [], .pylist [], .pylist [], .pyuni [], .pylist [], .pylist []⟩

/-- The `--append` loop over the seven relevant attributes. -/
def appendAll (a : EditArgs) (r : Record) : PyResult Record :=
  match pyIAdd r.description a.description with
  | .exn e => .exn e
  | .ok d =>
  match pyIAdd r.version a.version with
  | .exn e => .exn e
  | .ok v =>
  match pyIAdd r.prevVersions a.prevVersions with
  | .exn e => .exn e
  | .ok p =>
  match pyIAdd r.commands a.commands with
  | .exn e => .exn e
  | .ok c =>
  match pyIAdd r.installMethod a.installMethod with
  | .exn e => .exn e
  | .ok i =>
  match pyIAdd r.dependencies a.dependencies with
  | .exn e => .exn e
  | .ok dep =>
  match pyIAdd r.categories a.categories with
  | .exn e => .exn e
  | .ok cat => .ok ⟨d, v, p, c, i, dep, cat⟩

def storeKeys (data : Store) : List (List Char) := data.map Prod.fst

/-- `del data[match]`: KeyError when the key is absent. -/
def storeDel (data : Store) (k : List Char) : PyResult Store :=
  if data.any (fun kv => kv.1 == k) then .ok (data.filter (fun kv => !(kv.1 == k)))
  else .exn .keyError

/-- `data[match][attribute] = ...` mutation: replace the record at `k`. -/
def storeSet (data : Store) (k : List Char) (r : Record) : Store :=
  data.map (fun kv => if kv.1 = k then (kv.1, r) else kv)

/-- `data[match]` lookup. -/
def storeLookup (data : Store) (k : List Char) : Option Record :=
  match data.find? (fun kv => kv.1 == k) with
  | Option.none => Option.none
  | some kv => some kv.2

/-- Outcome of one step of the delete-confirmation `while True` loop. -/
inductive RemoveStep where
  | exitZero
  | deleted (s : Store)
  | blocked
  | failed (e : PyErr)
deriving DecidableEq

/-- The confirmation loop: `y` deletes and breaks, `n` calls
`sys.exit(0)`, anything else prints and asks again; `blocked` stands for
an exhausted answer stream (the real loop would keep prompting). -/
def removeLoop (data : Store) (m : List Char) : List (List Char) → RemoveStep
  | [] => .blocked
  | ans :: rest =>
    if pyLower ans = ['y'] then
      match storeDel data m with
      | .ok d2 => .deleted d2
      | .exn e => .failed e
    else if pyLower ans = ['n'] then .exitZero
    else removeLoop data m rest

/-- Observable outcome of `sub_edit`: the store persisted on disk when the
process exits together with the exit code, a Python exception, or a
block on terminal input.  A path that reaches the end of `sub_edit`
rewrites the database file with the current `data` and then exits 0 in
`entry()`; `sys.exit` taken before the write leaves the original store
on disk. -/
inductive EditOutcome where
  | finished (persisted : Store) (code : Nat)
  | err (e : PyErr)
  | needInput
deriving DecidableEq

/-- `sub_edit(args, data)` (jarvis.py).  `match` is `autocomplete(...)`
unless `--append` was given, in which case it is Python `False`
(modelled by `Option.none`). -/
def sub_edit (args : EditArgs) (data : Store) (answers : List (List Char)) : EditOutcome :=
  match (if args.append = false then
          match autocomplete args.software (storeKeys data) ⟨3, 4⟩ with
          | .ok m => .ok (some m)
          | .exn e => .exn e
         else .ok Option.none : PyResult (Option (List Char))) with
  | .exn e => .err e
  | .ok mOpt =>
    if args.remove = true then
      match mOpt with
      | some m =>
        match removeLoop data m answers with
        | .deleted d2 => .finished d2 0
        | .exitZero => .finished data 0
        | .blocked => .needInput
        | .failed e => .err e
      | Option.none => .finished data 1
    else if args.edit = true then
      match mOpt with
      | some m =>
        match storeLookup data m with
        | Option.none => .err .keyError
        | some r =>
          match applyEditAll args r with
          | .exn e => .err e
          | .ok r2 => .finished (storeSet data m r2) 0
      | Option.none => .finished data 0
    else if args.append = true then
      if data.any (fun kv => kv.1 == args.software) then .finished data 1
      else
        match appendAll args defaultRecord with
        | .exn e => .err e
        | .ok r => .finished (data ++ [(args.software, r)]) 0
    else .finished data 0

/-! Concrete fixtures used by the sub_edit claims. -/

def progKey : List Char := ['p', 'r', 'o', 'g']

/-- A well-formed database record for entry "prog": description
"aligner", version "1", previous versions [], commands ["a"],
installation method "src", dependencies [], categories ["bio"]. -/
def progRecord : Record :=
  ⟨.pyuni ['a', 'l', 'i', 'g', 'n', 'e', 'r'], .pyuni ['1'], .pylist [],
    .pylist [['a']], .pyuni ['s', 'r', 'c'], .pylist [], .pylist [['b', 'i', 'o']]⟩

def progStore : Store := [(progKey, progRecord)]

/-- Arguments of `edit prog -e -v 2.0`: only the version flag supplied,
every other field flag keeps its argparse default. -/
def editVersionArgs : EditArgs :=
  { software := progKey,
    append := false,
    edit := true,
    remove := false,
    version := .pystr ['2', '.', '0'],
    description := .pynone,
    prevVersions := .pyuni [],
    commands := .pyuni [],
    categories := .pyuni [],
    installMethod := .pyuni [],
    dependencies := .pyuni [] }

/-- Arguments of `edit prog -r` (remove). -/
def removeArgs : EditArgs :=
  { software := progKey,
    append := false,
    edit := false,
    remove := true,
    version := .pynone,
    description := .pynone,
    prevVersions := .pyuni [],
    commands := .pyuni [],
    categories := .pyuni [],
    installMethod := .pyuni [],
    dependencies := .pyuni [] }

def newKey : List Char := ['n', 'e', 'w', 't', 'o', 'o', 'l']

/-- Arguments of `edit newtool -a -v 1 -s d` (both scalar flags given). -/
def appendOkArgs : EditArgs :=
  { software := newKey,
    append := true,
    edit := false,
    remove := false,
    version := .pystr ['1'],
    description := .pystr ['d'],
    prevVersions := .pyuni [],
    commands := .pyuni [],
    categories := .pyuni [],
    installMethod := .pyuni [],
    dependencies := .pyuni [] }

/-- Arguments of `edit newtool -a` with no field flags at all. -/
def appendBareArgs : EditArgs :=
  { software := newKey,
    append := true,
    edit := false,
    remove := false,
    version := .pynone,
    description := .pynone,
    prevVersions := .pyuni [],
    commands := .pyuni [],
    categories := .pyuni [],
    installMethod := .pyuni [],
    dependencies := .pyuni [] }

/-- Arguments of `edit prog -a` when "prog" already exists. -/
def appendDupArgs : EditArgs :=
  { software := progKey,
    append := true,
    edit := false,
    remove := false,
    version := .pynone,
    description := .pynone,
    prevVersions := .pyuni [],
    commands := .pyuni [],
    categories := .pyuni [],
    installMethod := .pyuni [],
    dependencies := .pyuni [] }

/-- Arguments of `edit prog -e -c +,x,y` (append "x","y" to the commands
sequence of an existing entry). -/
def appendCmdArgs : EditArgs :=
  { software := progKey,
    append := false,
    edit := true,
    remove := false,
    version := .pynone,
    description := .pynone,
    prevVersions := .pyuni [],
    commands := .pylist [['+'], ['x'], ['y']],
    categories := .pyuni [],
    installMethod := .pyuni [],
    dependencies := .pyuni [] }

/-! Lemmas about `tryLetters`, `max_substring` and `lcpFrom`. -/

theorem tryLetters_length {words : List (List Char)} {p : Nat} {ls : List Char}
    (h : tryLetters words p = some ls) : ls.length = words.length := by
  induction words generalizing ls with
  | nil =>
    simp only [tryLetters, Option.some.injEq] at h
    subst h; rfl
  | cons w ws ih =>
    simp only [tryLetters] at h
    cases hw : w[p]? with
    | none => rw [hw] at h; exact absurd h (by simp)
    | some c =>
      rw [hw] at h
      cases ht : tryLetters ws p with
      | none => rw [ht] at h; exact absurd h (by simp)
      | some cs =>
        rw [ht] at h
        simp only [Option.some.injEq] at h
        subst h
        simp [ih ht]

theorem tryLetters_mem {words : List (List Char)} {p : Nat} {ls : List Char}
    (h : tryLetters words p = some ls) :
    ∀ w ∈ words, ∃ c, w[p]? = some c ∧ c ∈ ls := by
  induction words generalizing ls with
  | nil => intro w hw; exact absurd hw (by simp)
  | cons w0 ws ih =>
    intro w hw
    simp only [tryLetters] at h
    cases hw0 : w0[p]? with
    | none => rw [hw0] at h; exact absurd h (by simp)
    | some c0 =>
      rw [hw0] at h
      cases ht : tryLetters ws p with
      | none => rw [ht] at h; exact absurd h (by simp)
      | some cs =>
        rw [ht] at h
        simp only [Option.some.injEq] at h
        subst h
        rcases List.mem_cons.mp hw with hw | hw
        · exact ⟨c0, hw ▸ hw0, by simp⟩
        · obtain ⟨c, hc1, hc2⟩ := ih ht w hw
          exact ⟨c, hc1, by simp [hc2]⟩

theorem tryLetters_none_of_short {words : List (List Char)} {w : List Char} {p : Nat}
    (hw : w ∈ words) (hp : w.length ≤ p) : tryLetters words p = Option.none := by
  induction words with
  | nil => exact absurd hw (by simp)
  | cons w0 ws ih =>
    rcases List.mem_cons.mp hw with hww | hww
    · subst hww
      have : w[p]? = Option.none := List.getElem?_eq_none hp
      simp [tryLetters, this]
    · simp only [tryLetters]
      cases hw0 : w0[p]? with
      | none => rfl
      | some c0 => rw [ih hww]

theorem tryLetters_const {words : List (List Char)} {p : Nat} {c : Char}
    (h : ∀ w ∈ words, w[p]? = some c) :
    tryLetters words p = some (words.map (fun _ => c)) := by
  induction words with
  | nil => rfl
  | cons w0 ws ih =>
    have h0 := h w0 (by simp)
    have ht := ih (fun w hw => h w (by simp [hw]))
    simp [tryLetters, h0, ht]

theorem max_substringF_eq (fuel : Nat) (words : List (List Char)) (hw : words ≠ [])
    (last : List Char) (p : Nat) :
    max_substringF fuel words last p = some (last ++ lcpFromF fuel words p) := by
  induction fuel generalizing last p with
  | zero => simp [max_substringF, lcpFromF]
  | succ fuel ih =>
    simp only [max_substringF, lcpFromF]
    cases htl : tryLetters words p with
    | none => simp
    | some letter =>
      dsimp only
      by_cases hall : letter.all (fun l => letter.head? == some l)
      · rw [if_pos hall, if_pos hall]
        cases hh : letter.head? with
        | none =>
          exfalso
          have h1 := tryLetters_length htl
          rw [List.head?_eq_none_iff.mp hh] at h1
          simp only [List.length_nil] at h1
          exact hw (List.eq_nil_of_length_eq_zero h1.symm)
        | some l0 =>
          dsimp only
          rw [ih [l0] (p + 1)]
          simp
      · rw [if_neg hall, if_neg hall]
        simp

theorem max_substring_eq (words : List (List Char)) (hw : words ≠ []) (last : List Char)
    (p : Nat) : max_substring words last p = some (last ++ lcpFrom words p) :=
  max_substringF_eq (sumLen words + 1) words hw last p

theorem max_substring_isSome (words : List (List Char)) (hw : words ≠ [])
    (last : List Char) (p : Nat) : (max_substring words last p).isSome = true := by
  rw [max_substring_eq words hw last p]; rfl

theorem max_substring_exhausted {words : List (List Char)} {w : List Char} {p : Nat}
    (hw : w ∈ words) (hp : w.length ≤ p) (last : List Char) :
    max_substring words last p = some last := by
  have h := tryLetters_none_of_short hw hp
  simp [max_substring, max_substringF, h]

theorem lcpFromF_isPrefixOf (fuel : Nat) (words : List (List Char)) (p : Nat) :
    ∀ w ∈ words, (lcpFromF fuel words p).isPrefixOf (w.drop p) = true := by
  induction fuel generalizing p with
  | zero => intro w hw; simp [lcpFromF, List.isPrefixOf]
  | succ fuel ih =>
    intro w hw
    simp only [lcpFromF]
    cases htl : tryLetters words p with
    | none => simp [List.isPrefixOf]
    | some letter =>
      dsimp only
      by_cases hall : letter.all (fun l => letter.head? == some l)
      · rw [if_pos hall]
        cases hh : letter.head? with
        | none => simp [List.isPrefixOf]
        | some l0 =>
          dsimp only
          obtain ⟨c, hc1, hc2⟩ := tryLetters_mem htl w hw
          have hcl : c = l0 := by
            have h3 := List.all_eq_true.mp hall c hc2
            rw [hh] at h3
            exact (Option.some_inj.mp (beq_iff_eq.mp h3)).symm
          subst hcl
          have hlen : p < w.length := (List.getElem?_eq_some.mp hc1).1
          rw [List.drop_eq_getElem_cons hlen, (List.getElem?_eq_some.mp hc1).2]
          simp only [List.isPrefixOf, beq_self_eq_true, Bool.true_and]
          exact ih (p + 1) w hw
      · rw [if_neg hall]
        simp [List.isPrefixOf]

theorem lcpFromF_longest (fuel : Nat) (words : List (List Char)) (hw : words ≠ [])
    (q : List Char) (p : Nat) (hfuel : sumLen words + 1 - p ≤ fuel)
    (hq : ∀ w ∈ words, q.isPrefixOf (w.drop p) = true) :
    q.length ≤ (lcpFromF fuel words p).length := by
  induction fuel generalizing q p with
  | zero =>
    cases q with
    | nil => simp
    | cons c q2 =>
      exfalso
      obtain ⟨w0, hw0⟩ : ∃ w0, w0 ∈ words := by
        cases words with
        | nil => exact absurd rfl hw
        | cons a l => exact ⟨a, by simp⟩
      have h0 := hq w0 hw0
      have hne : w0.drop p ≠ [] := by
        intro hcon
        rw [hcon] at h0
        simp [List.isPrefixOf] at h0
      have hplen : p < w0.length := by
        by_contra hcon
        exact hne (List.drop_eq_nil_of_le (by omega))
      have : p < sumLen words := by
        have : w0.length ≤ sumLen words := by
          have := List.mem_map_of_mem List.length hw0
          exact List.le_sum_of_mem this
        omega
      omega
  | succ fuel ih =>
    cases q with
    | nil => simp
    | cons c q2 =>
      have hwp : ∀ w ∈ words, w[p]? = some c ∧
          q2.isPrefixOf (w.drop (p + 1)) = true := by
        intro w hw2
        have h2 := hq w hw2
        cases hd : w.drop p with
        | nil => rw [hd] at h2; simp [List.isPrefixOf] at h2
        | cons x xs =>
          rw [hd] at h2
          simp only [List.isPrefixOf, Bool.and_eq_true, beq_iff_eq] at h2
          obtain ⟨hcx, hq2⟩ := h2
          subst hcx
          have hh : w[p]? = some c := by
            have := List.head?_drop w p
            rw [hd] at this
            exact this.symm
          have hlen : p < w.length := (List.getElem?_eq_some.mp hh).1
          have hxs : xs = w.drop (p + 1) := by
            have := List.drop_eq_getElem_cons hlen
            rw [hd] at this
            have hwp2 : w[p] = c := (List.getElem?_eq_some.mp hh).2
            rw [hwp2] at this
            exact (List.cons.injEq c xs (c) (w.drop (p+1)) ▸ this).2
          rw [← hxs]
          exact ⟨hh, hq2⟩
      have htl := tryLetters_const (fun w hw2 => (hwp w hw2).1)
      simp only [lcpFromF, htl]
      obtain ⟨w0, ws, hcons⟩ : ∃ w0 ws, words = w0 :: ws := by
        cases words with
        | nil => exact absurd rfl hw
        | cons a l => exact ⟨a, l, rfl⟩
      have hhead : (words.map (fun _ => c)).head? = some c := by
        subst hcons; rfl
      have hall : (words.map (fun _ => c)).all
          (fun l => (words.map (fun _ => c)).head? == some l) = true := by
        rw [List.all_eq_true]
        intro l hl
        obtain ⟨w1, -, hlc⟩ := List.mem_map.mp hl
        subst hlc
        rw [hhead]
        exact beq_self_eq_true (some c)
      rw [if_pos hall, hhead]
      simp only [List.length_cons, Nat.add_le_add_iff_right]
      have hple : p < sumLen words := by
        have h0 := (hwp w0 (by simp [hcons])).1
        have hlen : p < w0.length := (List.getElem?_eq_some.mp h0).1
        have : w0.length ≤ sumLen words := by
          have := List.mem_map_of_mem List.length (by simp [hcons] : w0 ∈ words)
          exact List.le_sum_of_mem this
        omega
      exact ih q2 (p + 1) (by omega) (fun w hw2 => (hwp w hw2).2)

/-! Claims C6, C7, C10: `max_substring`. -/

/-- Claim C6: for every non-empty list of strings, `max_substring`
(called as the source calls it, with `last_letter = ''`, `position = 0`)
returns the longest string that is a prefix of every member, by
character-by-character comparison that stops at the first disagreement
or exhausted word; in particular it returns "aaa" on
["aaaa","aaab","aaac"] and "" on ["abc","bcd","cde"]. -/
theorem C6_max_substring_lcp :
    (∀ words : List (List Char), words ≠ [] →
      ∃ p, max_substring words [] 0 = some p ∧
        (∀ w ∈ words, p.isPrefixOf w = true) ∧
        (∀ q : List Char, (∀ w ∈ words, q.isPrefixOf w = true) → q.length ≤ p.length)) ∧
    max_substring [['a','a','a','a'], ['a','a','a','b'], ['a','a','a','c']] [] 0 =
      some ['a','a','a'] ∧
    max_substring [['a','b','c'], ['b','c','d'], ['c','d','e']] [] 0 = some [] := by
  refine ⟨?_, by decide, by decide⟩
  intro words hw
  refine ⟨lcpFrom words 0, ?_, ?_, ?_⟩
  · rw [max_substring_eq words hw [] 0]
    simp
  · intro w hww
    have h := lcpFromF_isPrefixOf (sumLen words + 1) words 0 w hww
    rw [List.drop_zero] at h
    exact h
  · intro q hq
    exact lcpFromF_longest (sumLen words + 1) words hw q 0 (by omega)
      (fun w hww => by rw [List.drop_zero]; exact hq w hww)

/-- Witness for C6 at the concrete non-empty input [['a','b'],['a','c']]. -/
theorem C6_witness :
    ∃ p, max_substring [['a','b'], ['a','c']] [] 0 = some p ∧
      (∀ w ∈ [['a','b'], ['a','c']], p.isPrefixOf w = true) ∧
      (∀ q : List Char, (∀ w ∈ [['a','b'], ['a','c']], q.isPrefixOf w = true) →
        q.length ≤ p.length) :=
  C6_max_substring_lcp.1 [['a','b'], ['a','c']] (by decide)

/-- Claim C7 (code bug in the source): `max_substring([])` does not
return the empty string.  The guarding `try` covers only the list
comprehension; on the empty word list the comprehension yields `[]`,
`all(...)` is vacuously true, and `letter[0]` — evaluated as an argument
of the recursive call, outside the `try` — raises an uncaught
IndexError, modelled as `Option.none`. -/
theorem C7_empty_input_crashes : max_substring [] [] 0 = Option.none := by decide

/-- Claim C10: `max_substring` terminates on every non-empty list of
strings: the embedding is total by construction, the result is always a
value (never the IndexError escape) when the word list is non-empty, and
as soon as `position` reaches the length of some word the exhausted-word
branch returns the accumulated `last_letter` unchanged. -/
theorem C10_termination :
    (∀ (words : List (List Char)) (last : List Char) (p : Nat), words ≠ [] →
      (max_substring words last p).isSome = true) ∧
    (∀ (words : List (List Char)) (w last : List Char) (p : Nat),
      w ∈ words → w.length ≤ p → max_substring words last p = some last) :=
  ⟨fun words last p hw => max_substring_isSome words hw last p,
   fun _ _ last _ hw hp => max_substring_exhausted hw hp last⟩

/-- Witness for C10 at concrete inputs. -/
theorem C10_witness :
    (max_substring [['a','b'], ['a','c']] ['z'] 1).isSome = true ∧
    max_substring [['a','b'], ['a','c']] ['x'] 2 = some ['x'] := by
  constructor
  · exact C10_termination.1 [['a','b'], ['a','c']] ['z'] 1 (by decide)
  · exact C10_termination.2 [['a','b'], ['a','c']] ['a','b'] ['x'] 2 (by decide) (by decide)

/-! Order lemmas for the `(score, string)` comparison used by
`heapq.nlargest` inside `get_close_matches`. -/

theorem strLtB_irrefl (l : List Char) : strLtB l l = false := by
  induction l with
  | nil => rfl
  | cons c cs ih => simp [strLtB, ih]

theorem strLtB_asymm {l m : List Char} (h : strLtB l m = true) : strLtB m l = false := by
  induction l generalizing m with
  | nil =>
    cases m with
    | nil => exact absurd h (by simp [strLtB])
    | cons d ds => rfl
  | cons c cs ih =>
    cases m with
    | nil => exact absurd h (by simp [strLtB])
    | cons d ds =>
      simp only [strLtB] at h ⊢
      by_cases h1 : c.toNat < d.toNat
      · rw [if_neg (by omega : ¬ d.toNat < c.toNat), if_pos h1]
      · by_cases h2 : d.toNat < c.toNat
        · rw [if_neg h1, if_pos h2] at h
          exact absurd h (by simp)
        · rw [if_neg h1, if_neg h2] at h
          rw [if_neg h2, if_neg h1]
          exact ih h

theorem strLtB_neg_trans {a b c : List Char} (hab : strLtB a b = false)
    (hbc : strLtB b c = false) : strLtB a c = false := by
  induction a generalizing b c with
  | nil =>
    cases c with
    | nil => rfl
    | cons z zs =>
      exfalso
      cases b with
      | nil => exact absurd hbc (by simp [strLtB])
      | cons y ys => exact absurd hab (by simp [strLtB])
  | cons x xs ih =>
    cases c with
    | nil => rfl
    | cons z zs =>
      cases b with
      | nil => exact absurd hbc (by simp [strLtB])
      | cons y ys =>
        simp only [strLtB] at hab hbc ⊢
        have hxy : ¬ x.toNat < y.toNat := by
          intro h1
          rw [if_pos h1] at hab
          exact absurd hab (by simp)
        have hyz : ¬ y.toNat < z.toNat := by
          intro h2
          rw [if_pos h2] at hbc
          exact absurd hbc (by simp)
        rw [if_neg hxy] at hab
        rw [if_neg hyz] at hbc
        by_cases hxz : x.toNat < z.toNat
        · omega
        · rw [if_neg hxz]
          by_cases hzx : z.toNat < x.toNat
          · rw [if_pos hzx]
          · rw [if_neg hzx]
            have hyx : ¬ y.toNat < x.toNat := by omega
            have hzy : ¬ z.toNat < y.toNat := by omega
            rw [if_neg hyx] at hab
            rw [if_neg hzy] at hbc
            exact ih hab hbc

theorem flt_irrefl (x : Frac) : flt x x = false := by
  simp [flt]

theorem flt_asymm {x y : Frac} (h : flt x y = true) : flt y x = false := by
  simp only [flt, decide_eq_true_eq] at h
  simp only [flt, decide_eq_false_iff_not, not_lt]
  exact le_of_lt h

theorem frac_le_trans {xn yn zn xd yd zd : Int} (hxd : 0 ≤ xd) (hyd : 0 < yd) (hzd : 0 ≤ zd)
    (hxy : yn * xd ≤ xn * yd) (hyz : zn * yd ≤ yn * zd) : zn * xd ≤ xn * zd := by
  have h1 : yn * xd * zd ≤ xn * yd * zd := mul_le_mul_of_nonneg_right hxy hzd
  have h2 : zn * yd * xd ≤ yn * zd * xd := mul_le_mul_of_nonneg_right hyz hxd
  have h3 : zn * xd * yd ≤ xn * zd * yd := by nlinarith
  exact le_of_mul_le_mul_right h3 hyd

theorem frac_lt_trans_a {xn yn zn xd yd zd : Int} (hxd : 0 ≤ xd) (hyd : 0 < yd) (hzd : 0 < zd)
    (hxy : yn * xd < xn * yd) (hyz : zn * yd ≤ yn * zd) : zn * xd < xn * zd := by
  have h1 : yn * xd * zd < xn * yd * zd := mul_lt_mul_of_pos_right hxy hzd
  have h2 : zn * yd * xd ≤ yn * zd * xd := mul_le_mul_of_nonneg_right hyz hxd
  have h3 : zn * xd * yd < xn * zd * yd := by nlinarith
  exact lt_of_mul_lt_mul_right h3 (le_of_lt hyd)

theorem frac_lt_trans_b {xn yn zn xd yd zd : Int} (hxd : 0 < xd) (hyd : 0 < yd) (hzd : 0 ≤ zd)
    (hxy : yn * xd ≤ xn * yd) (hyz : zn * yd < yn * zd) : zn * xd < xn * zd := by
  have h1 : yn * xd * zd ≤ xn * yd * zd := mul_le_mul_of_nonneg_right hxy hzd
  have h2 : zn * yd * xd < yn * zd * xd := mul_lt_mul_of_pos_right hyz hxd
  have h3 : zn * xd * yd < xn * zd * yd := by nlinarith
  exact lt_of_mul_lt_mul_right h3 (le_of_lt hyd)

theorem scoreLt_eq_false_iff {x y : Frac × List Char} :
    scoreLt x y = false ↔
      flt x.1 y.1 = false ∧ (flt y.1 x.1 = true ∨ strLtB x.2 y.2 = false) := by
  unfold scoreLt
  by_cases h1 : flt x.1 y.1
  · simp [h1]
  · by_cases h2 : flt y.1 x.1
    · simp [h1, h2]
    · simp [h1, h2]

theorem scoreLt_irrefl (x : Frac × List Char) : scoreLt x x = false := by
  rw [scoreLt_eq_false_iff]
  exact ⟨flt_irrefl x.1, Or.inr (strLtB_irrefl x.2)⟩

theorem scoreLt_asymm {x y : Frac × List Char} (h : scoreLt x y = true) :
    scoreLt y x = false := by
  unfold scoreLt at h
  rw [scoreLt_eq_false_iff]
  by_cases h1 : flt x.1 y.1
  · exact ⟨flt_asymm h1, Or.inl h1⟩
  · rw [if_neg h1] at h
    by_cases h2 : flt y.1 x.1
    · rw [if_pos h2] at h
      exact absurd h (by simp)
    · rw [if_neg h2] at h
      exact ⟨(Bool.not_eq_true _).mp h2, Or.inr (strLtB_asymm h)⟩

theorem scoreLt_neg_trans {x y z : Frac × List Char} (hx : 0 < x.1.den) (hy : 0 < y.1.den)
    (hz : 0 < z.1.den) (hxy : scoreLt x y = false) (hyz : scoreLt y z = false) :
    scoreLt x z = false := by
  rw [scoreLt_eq_false_iff] at hxy hyz ⊢
  obtain ⟨h1, h2⟩ := hxy
  obtain ⟨h3, h4⟩ := hyz
  have hxd : (0 : Int) ≤ x.1.den := by positivity
  have hxd2 : (0 : Int) < x.1.den := by exact_mod_cast hx
  have hyd : (0 : Int) < y.1.den := by exact_mod_cast hy
  have hzd : (0 : Int) ≤ z.1.den := by positivity
  have hzd2 : (0 : Int) < z.1.den := by exact_mod_cast hz
  simp only [flt, decide_eq_false_iff_not, not_lt] at h1 h3
  constructor
  · simp only [flt, decide_eq_false_iff_not, not_lt]
    exact frac_le_trans hxd hyd hzd h1 h3
  · rcases h2 with h2 | h2
    · left
      simp only [flt, decide_eq_true_eq] at h2 ⊢
      exact frac_lt_trans_a hxd hyd hzd2 h2 h3
    · rcases h4 with h4 | h4
      · left
        simp only [flt, decide_eq_true_eq] at h4 ⊢
        exact frac_lt_trans_b hxd2 hyd hzd h1 h4
      · exact Or.inr (strLtB_neg_trans h2 h4)

/-! Lemmas about `insertDesc`/`sortDesc` (the model of
`heapq.nlargest`). -/

theorem insertDesc_perm (x : Frac × List Char) (l : List (Frac × List Char)) :
    List.Perm (insertDesc x l) (x :: l) := by
  induction l with
  | nil => exact List.Perm.refl _
  | cons z zs ih =>
    simp only [insertDesc]
    by_cases h : scoreLt x z = true
    · rw [if_pos h]
      exact (ih.cons z).trans (List.Perm.swap x z zs)
    · rw [if_neg h]

theorem insertDesc_mem {x y : Frac × List Char} {l : List (Frac × List Char)} :
    y ∈ insertDesc x l ↔ y = x ∨ y ∈ l := by
  rw [(insertDesc_perm x l).mem_iff, List.mem_cons]

theorem sortDesc_mem {y : Frac × List Char} {l : List (Frac × List Char)} :
    y ∈ sortDesc l ↔ y ∈ l := by
  induction l with
  | nil => simp [sortDesc]
  | cons z zs ih =>
    simp only [sortDesc, insertDesc_mem, ih, List.mem_cons]

theorem sortDesc_length (l : List (Frac × List Char)) : (sortDesc l).length = l.length := by
  induction l with
  | nil => rfl
  | cons z zs ih =>
    have hins : ∀ (x : Frac × List Char) (m : List (Frac × List Char)),
        (insertDesc x m).length = m.length + 1 := by
      intro x m
      induction m with
      | nil => rfl
      | cons w ws ihw =>
        simp only [insertDesc]
        by_cases h : scoreLt x w
        · simp [h, ihw]
        · simp [h]
    simp only [sortDesc, hins, ih, List.length_cons]

theorem sortDesc_head_dominates :
    ∀ (l : List (Frac × List Char)) (h : Frac × List Char) (t : List (Frac × List Char)),
      (∀ p ∈ l, 0 < p.1.den) → sortDesc l = h :: t → ∀ y ∈ l, scoreLt h y = false := by
  intro l
  induction l with
  | nil => intro h t _ heq; exact absurd heq (by simp [sortDesc])
  | cons z zs ih =>
    intro h t hpos heq
    simp only [sortDesc] at heq
    cases hsz : sortDesc zs with
    | nil =>
      have hzs : zs = [] := by
        have hl := sortDesc_length zs
        rw [hsz] at hl
        exact List.eq_nil_of_length_eq_zero hl.symm
      subst hzs
      rw [hsz] at heq
      simp only [insertDesc] at heq
      have hh : h = z := (List.cons.inj heq).1.symm
      subst hh
      intro y hy
      simp only [List.mem_singleton] at hy
      subst hy
      exact scoreLt_irrefl y
    | cons hz tz =>
      rw [hsz] at heq
      have ihz : ∀ y ∈ zs, scoreLt hz y = false :=
        ih hz tz (fun p hp => hpos p (by simp [hp])) hsz
      have hzmem : hz ∈ zs := by
        have hmem : hz ∈ sortDesc zs := by rw [hsz]; exact List.mem_cons_self hz tz
        exact sortDesc_mem.mp hmem
      simp only [insertDesc] at heq
      by_cases hc : scoreLt z hz = true
      · rw [if_pos hc] at heq
        have hh : h = hz := (List.cons.inj heq).1.symm
        subst hh
        intro y hy
        rcases List.mem_cons.mp hy with hy | hy
        · subst hy
          exact scoreLt_asymm hc
        · exact ihz y hy
      · rw [if_neg hc] at heq
        have hh : h = z := (List.cons.inj heq).1.symm
        intro y hy
        rw [hh]
        rcases List.mem_cons.mp hy with hy | hy
        · rw [hy]
          exact scoreLt_irrefl z
        · have hcz : scoreLt z hz = false := Bool.eq_false_iff.mpr hc
          exact scoreLt_neg_trans (hpos z (by simp)) (hpos hz (by simp [hzmem]))
            (hpos y (by simp [hy])) hcz (ihz y hy)

theorem calculate_ratio_den_pos (m t : Nat) : 0 < (calculate_ratio m t).den := by
  unfold calculate_ratio
  by_cases h : t ≠ 0
  · rw [if_pos h]
    show 0 < t
    omega
  · rw [if_neg h]
    exact Nat.one_pos

theorem ratio_den_pos (a b : List Char) : 0 < (ratio a b).den :=
  calculate_ratio_den_pos _ _

/-- Head of the `get_close_matches` result when the cutoff is valid and
some candidate survives: it is a survivor beating every survivor in the
`(score, string)` order. -/
theorem get_close_matches_head (word : List Char) (poss : List (List Char)) (δ : Frac)
    (hcut : (fle fzero δ && fle δ fone) = true)
    (hsurv : survivors word poss δ ≠ []) :
    ∃ m ms, get_close_matches word poss 3 δ = .ok (m :: ms) ∧ m ∈ survivors word poss δ ∧
      ∀ x ∈ survivors word poss δ,
        scoreLt (ratio m word, m) (ratio x word, x) = false := by
  unfold get_close_matches
  rw [if_neg (by omega : ¬ (3 : Nat) = 0), if_neg (by simp [hcut])]
  set scored := (survivors word poss δ).map (fun x => (ratio x word, x)) with hscored
  have hlen : scored.length = (survivors word poss δ).length := by
    simp [hscored]
  have hne : scored ≠ [] := by
    intro hcon
    rw [hcon] at hlen
    exact hsurv (List.eq_nil_of_length_eq_zero hlen.symm)
  cases hsort : sortDesc scored with
  | nil =>
    exfalso
    have := sortDesc_length scored
    rw [hsort] at this
    exact hne (List.eq_nil_of_length_eq_zero this.symm)
  | cons hd tl =>
    have hpos : ∀ p ∈ scored, 0 < p.1.den := by
      intro p hp
      obtain ⟨x, -, hx⟩ := List.mem_map.mp hp
      rw [← hx]
      exact ratio_den_pos x word
    have hdom := sortDesc_head_dominates scored hd tl hpos hsort
    have hdmem : hd ∈ scored := by
      have : hd ∈ sortDesc scored := by rw [hsort]; exact List.mem_cons_self hd tl
      exact sortDesc_mem.mp this
    obtain ⟨x0, hx0s, hx0⟩ := List.mem_map.mp hdmem
    refine ⟨x0, (tl.take 2).map Prod.snd, ?_, hx0s, ?_⟩
    · rw [← hx0]
      rfl
    · intro x hx
      have hxs : (ratio x word, x) ∈ scored := List.mem_map.mpr ⟨x, hx, rfl⟩
      have := hdom (ratio x word, x) hxs
      rw [← hx0] at this
      exact this

/-! Claims C1, C2, C3: the name resolver. -/

/-- Claim C1 (amended): the source compares the raw query against the
lowercased candidates (`if query in possibilities` after lowering only
the possibilities) and returns the query itself.  So: whenever the query
equals the lowercased form of some candidate, resolution returns that
lowercased form (the query) immediately, for every cutoff, in both
jarvis.autocomplete and utils.autocorrect. -/
theorem C1_exact_match_returns_query (q : List Char) (ps : List (List Char)) (δ : Frac)
    (h : q ∈ ps.map pyLower) :
    autocomplete q ps δ = PyResult.ok q ∧ autocorrect q ps δ = PyResult.ok q := by
  simp only [autocomplete, autocorrect]
  rw [if_pos h, if_pos h]
  exact ⟨rfl, rfl⟩

/-- Witness for C1: the spec example, `resolve("bowtie", {"bowtie",
"bowtie2"})` at cutoff 3/4. -/
theorem C1_witness :
    autocomplete ['b','o','w','t','i','e']
        [['b','o','w','t','i','e'], ['b','o','w','t','i','e','2']] ⟨3, 4⟩
      = PyResult.ok ['b','o','w','t','i','e'] ∧
    autocorrect ['b','o','w','t','i','e']
        [['b','o','w','t','i','e'], ['b','o','w','t','i','e','2']] ⟨3, 4⟩
      = PyResult.ok ['b','o','w','t','i','e'] :=
  C1_exact_match_returns_query _ _ _ (by decide)

/-- Counterexample to C1 as stated: for query "A" and candidate set
{"a"} the lowercased query equals the lowercased candidate, yet
resolution does not return that candidate — the exact-match stage
compares the raw query, misses, and the remaining stages raise
IndexError. -/
theorem C1_counterexample :
    pyLower ['A'] = pyLower ['a'] ∧
      autocomplete ['A'] [['a']] ⟨3, 4⟩ = PyResult.exn PyErr.indexError :=
  ⟨by decide, by decide⟩

/-- Claim C2 (amended): for every cutoff in [0, 1], every query that is
not itself a lowercased member of the candidate set (an exact member
reaches any such cutoff trivially), and every candidate set in which no
(possibly narrowed) candidate reaches the cutoff — formalised as: the
survivor list of `get_close_matches` over the query and candidates it
is actually given is empty — resolution fails by raising an exception,
not by returning a tagged NoMatch value and not by exiting the process:
jarvis.autocomplete raises the untyped IndexError of `matches[0]` on an
empty list, and utils.autocorrect raises
`AssertionError('No matches for "<query>" found')`. -/
theorem C2_failure_is_exception (q : List Char) (ps : List (List Char)) (δ : Frac)
    (hcut : (fle fzero δ && fle δ fone) = true)
    (hexact : q ∉ ps.map pyLower)
    (hsurv : survivors (effectiveQuery q ps) (effectiveCandidates q ps) δ = []) :
    autocomplete q ps δ = PyResult.exn PyErr.indexError ∧
      autocorrect q ps δ = PyResult.exn
        (PyErr.assertionError (noMatchMsg (effectiveQuery q ps))) := by
  have hgcm : ∀ (w : List Char) (poss : List (List Char)), survivors w poss δ = [] →
      get_close_matches w poss 3 δ = PyResult.ok [] := by
    intro w poss hw
    unfold get_close_matches
    rw [if_neg (by omega : ¬ (3 : Nat) = 0), if_neg (by simp [hcut]), hw]
    rfl
  have heq : (ps.map pyLower).filter (fun w => q.isPrefixOf w) = narrowedOptions q ps := rfl
  by_cases hopt : 0 < (narrowedOptions q ps).length
  · have hne : narrowedOptions q ps ≠ [] := List.length_pos.mp hopt
    have hms : max_substring (narrowedOptions q ps) [] 0 = some (narrowedQuery q ps) := by
      unfold narrowedQuery
      obtain ⟨v, hv⟩ := Option.isSome_iff_exists.mp (max_substring_isSome _ hne [] 0)
      rw [hv]
      rfl
    have heffq : effectiveQuery q ps = narrowedQuery q ps := by
      unfold effectiveQuery
      rw [if_pos hopt]
    have heffc : effectiveCandidates q ps = narrowedOptions q ps := by
      unfold effectiveCandidates
      rw [if_pos hopt]
    rw [heffq, heffc] at hsurv
    have hg := hgcm _ _ hsurv
    constructor
    · simp only [autocomplete]
      rw [if_neg hexact, heq, if_pos hopt, hms]
      dsimp only
      rw [hg]
      rfl
    · simp only [autocorrect]
      rw [if_neg hexact, heq, if_pos hopt, hms]
      dsimp only
      rw [hg, heffq]
      rfl
  · have heffq : effectiveQuery q ps = q := by
      unfold effectiveQuery
      rw [if_neg hopt]
    have heffc : effectiveCandidates q ps = ps.map pyLower := by
      unfold effectiveCandidates
      rw [if_neg hopt]
    rw [heffq, heffc] at hsurv
    have hg := hgcm _ _ hsurv
    constructor
    · simp only [autocomplete]
      rw [if_neg hexact, heq, if_neg hopt, hg]
      rfl
    · simp only [autocorrect]
      rw [if_neg hexact, heq, if_neg hopt, hg, heffq]
      rfl

/-- Witness for C2 at the spec example `resolve("zzz",
{"bowtie","samtools"}, cutoff=0.75)`: the premises hold there and both
resolvers raise. -/
theorem C2_witness :
    autocomplete ['z','z','z'] [['b','o','w','t','i','e'], ['s','a','m','t','o','o','l','s']]
        ⟨3, 4⟩ = PyResult.exn PyErr.indexError ∧
      autocorrect ['z','z','z'] [['b','o','w','t','i','e'], ['s','a','m','t','o','o','l','s']]
        ⟨3, 4⟩ = PyResult.exn (PyErr.assertionError (noMatchMsg (effectiveQuery ['z','z','z']
          [['b','o','w','t','i','e'], ['s','a','m','t','o','o','l','s']]))) :=
  C2_failure_is_exception _ _ _ (by decide) (by decide) (by decide)

/-- Counterexample to C2 as stated: `resolve("zzz", {"bowtie",
"samtools"}, cutoff=0.75)` does not yield a NoMatch result value; the
jarvis.py resolver raises IndexError and the utils.py resolver raises
AssertionError. -/
theorem C2_counterexample :
    autocomplete ['z','z','z'] [['b','o','w','t','i','e'], ['s','a','m','t','o','o','l','s']]
        ⟨3, 4⟩ = PyResult.exn PyErr.indexError ∧
    autocorrect ['z','z','z'] [['b','o','w','t','i','e'], ['s','a','m','t','o','o','l','s']]
        ⟨3, 4⟩ = PyResult.exn (PyErr.assertionError (noMatchMsg ['z','z','z'])) :=
  ⟨by decide, by decide⟩

/-- Claim C3 (amended): when the query is not an exact (lowercased)
member, more than one lowercased candidate starts with the query as
given (the resolver does not lowercase the query), and some narrowed
candidate reaches the cutoff, resolution restricts the search to exactly
those lowercased candidates, replaces the query with their longest
common leading substring, and returns the surviving candidate that
maximises the pair (similarity ratio, candidate string): equal scores
are broken by descending string order — the tuple comparison of
`heapq.nlargest` — not by original input order. -/
theorem C3_narrow_then_best (q : List Char) (ps : List (List Char)) (δ : Frac)
    (hcut : (fle fzero δ && fle δ fone) = true)
    (hexact : q ∉ ps.map pyLower)
    (hopts : 1 < (narrowedOptions q ps).length)
    (hsurv : survivors (narrowedQuery q ps) (narrowedOptions q ps) δ ≠ []) :
    ∃ m, autocomplete q ps δ = PyResult.ok m ∧
      m ∈ survivors (narrowedQuery q ps) (narrowedOptions q ps) δ ∧
      ∀ x ∈ survivors (narrowedQuery q ps) (narrowedOptions q ps) δ,
        flt (ratio x (narrowedQuery q ps)) (ratio m (narrowedQuery q ps)) = true ∨
          (feq (ratio x (narrowedQuery q ps)) (ratio m (narrowedQuery q ps)) = true ∧
            strLtB m x = false) := by
  have hne : narrowedOptions q ps ≠ [] := by
    intro hcon
    rw [hcon] at hopts
    simp at hopts
  have hms : max_substring (narrowedOptions q ps) [] 0 = some (narrowedQuery q ps) := by
    unfold narrowedQuery
    obtain ⟨v, hv⟩ := Option.isSome_iff_exists.mp (max_substring_isSome _ hne [] 0)
    rw [hv]
    rfl
  obtain ⟨m, ms, hgcm, hmem, hdom⟩ :=
    get_close_matches_head (narrowedQuery q ps) (narrowedOptions q ps) δ hcut hsurv
  refine ⟨m, ?_, hmem, ?_⟩
  · simp only [autocomplete]
    rw [if_neg hexact]
    have heq : (ps.map pyLower).filter (fun w => q.isPrefixOf w) = narrowedOptions q ps := rfl
    have hopt0 : 0 < ((ps.map pyLower).filter (fun w => q.isPrefixOf w)).length := by
      rw [heq]
      omega
    rw [if_pos hopt0, heq, hms]
    dsimp only
    rw [hgcm]
    rfl
  · intro x hx
    have hsc := hdom x hx
    rw [scoreLt_eq_false_iff] at hsc
    dsimp only at hsc
    obtain ⟨h1, h2⟩ := hsc
    rcases h2 with h2 | h2
    · exact Or.inl h2
    · by_cases hlt : flt (ratio x (narrowedQuery q ps)) (ratio m (narrowedQuery q ps)) = true
      · exact Or.inl hlt
      · right
        refine ⟨?_, h2⟩
        have hlt2 : flt (ratio x (narrowedQuery q ps)) (ratio m (narrowedQuery q ps)) = false :=
          Bool.eq_false_iff.mpr hlt
        simp [feq, h1, hlt2]

/-- Witness for C3: `resolve("bow", {"bowtie","bowtie2"})` at cutoff
3/4: two candidates share the prefix, the query is narrowed to their
common prefix "bowtie", and the result is a surviving candidate. -/
theorem C3_witness :
    ∃ m, autocomplete ['b','o','w'] [['b','o','w','t','i','e'], ['b','o','w','t','i','e','2']]
        ⟨3, 4⟩ = PyResult.ok m ∧
      m ∈ survivors
        (narrowedQuery ['b','o','w'] [['b','o','w','t','i','e'], ['b','o','w','t','i','e','2']])
        (narrowedOptions ['b','o','w'] [['b','o','w','t','i','e'], ['b','o','w','t','i','e','2']])
        ⟨3, 4⟩ := by
  obtain ⟨m, h1, h2, -⟩ := C3_narrow_then_best ['b','o','w']
    [['b','o','w','t','i','e'], ['b','o','w','t','i','e','2']] ⟨3, 4⟩
    (by decide) (by decide) (by decide) (by decide)
  exact ⟨m, h1, h2⟩

/-- Counterexample to C3 as stated: on query "ab" with candidates
["abx", "aby"] both candidates reach the cutoff with equal similarity
ratio, yet resolution returns "aby", the second candidate in original
input order (the `(score, string)` tuple order of `heapq.nlargest`
prefers the lexicographically larger string on ties). -/
theorem C3_counterexample :
    feq (ratio ['a','b','x'] ['a','b']) (ratio ['a','b','y'] ['a','b']) = true ∧
      autocomplete ['a','b'] [['a','b','x'], ['a','b','y']] ⟨3, 4⟩
        = PyResult.ok ['a','b','y'] :=
  ⟨by decide, by decide⟩

/-! Claims C4, C5, C8, C9: the edit subcommand. -/

/-- Claim C4 (code bug in the source): editing is not frame-preserving.
`edit prog -e -v 2.0` on a record whose description is "aligner"
overwrites every unsupplied field with its argparse default — the
description and any unsupplied `--version`/`--synopsis` become None, the
list-valued fields become the empty unicode string — because the
`--edit` loop assigns `all_args[attribute]` unconditionally in its final
`else` branch. -/
theorem C4_absent_flags_clobber :
    sub_edit editVersionArgs progStore []
      = EditOutcome.finished
          [(progKey, ⟨.pynone, .pystr ['2', '.', '0'], .pyuni [], .pyuni [], .pyuni [],
            .pyuni [], .pyuni []⟩)] 0 ∧
      progRecord.description ≠ PyVal.pynone :=
  ⟨by decide, by decide⟩

/-- Claim C5 (amended): answering "n" to the delete confirmation leaves
the entry in place and terminates the process with exit code 0 (the
refusal branch calls `sys.exit(0)` before the database write), not with
exit code 1 as the claim states. -/
theorem C5_refusal_exits_zero (args : EditArgs) (data : Store) (m ans : List Char)
    (rest : List (List Char)) (hr : args.remove = true) (ha : args.append = false)
    (hm : autocomplete args.software (storeKeys data) ⟨3, 4⟩ = PyResult.ok m)
    (hn : pyLower ans = ['n']) :
    sub_edit args data (ans :: rest) = EditOutcome.finished data 0 := by
  unfold sub_edit
  rw [if_pos ha, hm]
  dsimp only
  rw [if_pos hr]
  simp only [removeLoop, hn]
  simp

/-- Witness for C5: `edit prog -r` answered with "n". -/
theorem C5_witness :
    sub_edit removeArgs progStore [['n']] = EditOutcome.finished progStore 0 :=
  C5_refusal_exits_zero removeArgs progStore progKey ['n'] [] (by decide) (by decide)
    (by decide) (by decide)

/-- Counterexample to C5 as stated: the refused confirmation exits with
code 0 and not with code 1. -/
theorem C5_counterexample :
    sub_edit removeArgs progStore [['n']] ≠ EditOutcome.finished progStore 1 ∧
      sub_edit removeArgs progStore [['n']] = EditOutcome.finished progStore 0 :=
  ⟨by decide, by decide⟩

/-- Claim C8 (code bug in the source): the exact-key AlreadyExists check
behaves as claimed (exit 1, nothing written), and an append with both
scalar flags supplied creates a record with all seven fields defined;
but an append that omits `--version` or `--synopsis` crashes with
TypeError (`'' + None`) instead of defaulting those fields to the empty
string, so no entry is created. -/
theorem C8_append_behavior :
    sub_edit appendDupArgs progStore [] = EditOutcome.finished progStore 1 ∧
    sub_edit appendOkArgs progStore []
      = EditOutcome.finished (progStore ++ [(newKey,
          ⟨.pyuni ['d'], .pyuni ['1'], .pylist [], .pylist [], .pyuni [], .pylist [],
            .pylist []⟩)]) 0 ∧
    sub_edit appendBareArgs progStore [] = EditOutcome.err PyErr.typeError :=
  ⟨by decide, by decide, by decide⟩

/-- Claim C9: the `+` sentinel of `edit --edit` appends the remaining
values to the existing sequence, preserving the existing order, then the
new values in the given order, with no deduplication; e.g. appending
["x","y"] to commands = ["a"] of entry "prog" yields ["a","x","y"]. -/
theorem C9_append_extends :
    (∀ (cur vs : List (List Char)),
      applyEdit (PyVal.pylist (['+'] :: vs)) (PyVal.pylist cur)
        = PyResult.ok (PyVal.pylist (cur ++ vs))) ∧
    sub_edit appendCmdArgs progStore []
      = EditOutcome.finished
          [(progKey, ⟨.pynone, .pynone, .pyuni [], .pylist [['a'], ['x'], ['y']], .pyuni [],
            .pyuni [], .pyuni []⟩)] 0 := by
  constructor
  · intro cur vs
    simp [applyEdit]
  · decide

end Jarvis

